/-
Verification of the adaptive-threshold SNN pacemaker simulation
(`adaptive_threshold.py`) against its natural-language specification.

The Python source is shallowly embedded over ℚ (Python floats are modelled
as exact rationals; the literals `1e-9`, `1e-12`, `-1e9` become the exact
rationals `1/10^9`, `1/10^12`, `-(10^9)`).  The only stochastic operation
reachable from the embedded code is the Bernoulli capture draw
`np.random.rand() < cap_prob` inside `PacemakerController.step`; its
outcome is abstracted as an explicit Boolean oracle argument (`draw`),
since no control flow other than the `captured` flag and the recorded
history depends on it.
-/
import Mathlib

/- Batteries marks the `Rat` field operations `@[irreducible]`, which blocks
`decide`-based evaluation of the embedded program on concrete inputs; their
reduction behaviour is restored here (this affects elaboration only — kernel
checking is unchanged). -/
set_option allowUnsafeReducibility true
attribute [semireducible] Rat.mul Rat.inv Rat.add Rat.sub Rat.ofScientific

set_option maxRecDepth 100000

namespace Pacemaker

/-- Scalar `np.clip(x, lo, hi)` = `min hi (max lo x)`. -/
def npclip (x lo hi : ℚ) : ℚ := min hi (max lo x)

/-! ## Pacemaker controller (`PacemakerController`, VVI mode) -/

/-- Configuration computed by `PacemakerController.__init__` (lines 127-139):
`escape_interval_s = 60.0 / lower_rate_bpm`, `blanking_s = blanking_ms / 1000`,
`refractory_s = refractory_ms / 1000`.  The three pulse/capture parameters are
kept for fidelity; they influence only the capture probability, whose
Bernoulli outcome is abstracted as an oracle. -/
structure PMCfg where
  fs : ℚ
  escape_interval_s : ℚ
  blanking_s : ℚ
  refractory_s : ℚ
  pulse_amp : ℚ
  pulse_width_s : ℚ
  capture_threshold : ℚ
  deriving Repr, DecidableEq

/-- Mutable state of `PacemakerController` (fields set in `reset`, lines
141-145, and mutated only in `step`). -/
structure PMState where
  last_event_time : ℚ
  blank_until : ℚ
  refract_until : ℚ
  pacing_history : List (ℚ × Bool)
  sensed_history : List ℚ
  deriving Repr, DecidableEq

/-- `PacemakerController.reset` (lines 141-145): all three timestamps are set
to `-1e9` and both histories are cleared. -/
def pmReset : PMState :=
  { last_event_time := -(10^9 : ℚ)
    blank_until := -(10^9 : ℚ)
    refract_until := -(10^9 : ℚ)
    pacing_history := []
    sensed_history := [] }

/-- `PacemakerController.__init__` (lines 127-139).  The Python body performs
no validation; the only possible failure is the `ZeroDivisionError` raised by
`60.0 / lower_rate_bpm` when `lower_rate_bpm = 0`, modelled as `none`. -/
def mkPacemaker (fs lower_rate_bpm blanking_ms refractory_ms
    pulse_amplitude_mV pulse_width_ms capture_threshold_mV : ℚ) : Option PMCfg :=
  if lower_rate_bpm = 0 then none
  else some
    { fs := fs
      escape_interval_s := 60 / lower_rate_bpm
      blanking_s := blanking_ms / 1000
      refractory_s := refractory_ms / 1000
      pulse_amp := pulse_amplitude_mV
      pulse_width_s := pulse_width_ms / 1000
      capture_threshold := capture_threshold_mV }

/-- `PacemakerController.step` (lines 147-162).  Returns the new state and
the `(pace, captured, accepted)` triple.  `draw` is the Boolean outcome of
the Bernoulli capture draw `np.random.rand() < cap_prob`. -/
def pmStep (cfg : PMCfg) (s : PMState) (t_s : ℚ) (detector_spike : Bool)
    (draw : Bool) : PMState × Bool × Bool × Bool :=
  let senseOk := detector_spike = true ∧ s.blank_until ≤ t_s ∧ s.refract_until ≤ t_s
  let s1 : PMState :=
    if senseOk then
      { s with sensed_history := s.sensed_history ++ [t_s]
               last_event_time := t_s
               refract_until := t_s + cfg.refractory_s }
    else s
  let accepted : Bool := decide senseOk
  let time_since_last := t_s - s1.last_event_time
  if cfg.escape_interval_s ≤ time_since_last then
    ({ s1 with last_event_time := t_s
               blank_until := t_s + cfg.blanking_s
               pacing_history := s1.pacing_history ++ [(t_s, draw)] },
     true, draw, accepted)
  else
    (s1, false, false, accepted)

/-- Fold `pmStep` over an explicit list of `(t_s, detector_spike, draw)`
inputs, returning the final state (the shape of the calls issued by
`run_closed_loop`, lines 181-184). -/
def pmRunSteps (cfg : PMCfg) (s : PMState) : List (ℚ × Bool × Bool) → PMState
  | [] => s
  | (t, sp, d) :: rest => pmRunSteps cfg (pmStep cfg s t sp d).1 rest

/-- The trajectory of controller states (initial state included) along a
sequence of step inputs. -/
def pmStates (cfg : PMCfg) (s : PMState) : List (ℚ × Bool × Bool) → List PMState
  | [] => [s]
  | (t, sp, d) :: rest => s :: pmStates cfg (pmStep cfg s t sp d).1 rest

/-- Drive the controller exactly as `run_closed_loop` does (lines 181-184):
step `n` times starting at sample index `i`, at times `t_i = i / fs`, feeding
the detector-spike flag `spk i` and capture draw `drw i`.  Returns the final
state together with the chronological list of controller-event times (the
times of steps at which a sense was accepted or a pace was delivered). -/
def pmRunFrom (cfg : PMCfg) (spk drw : ℕ → Bool) : ℕ → ℕ → PMState → PMState × List ℚ
  | _, 0, s => (s, [])
  | i, Nat.succ n, s =>
      let r := pmStep cfg s ((i : ℚ) / cfg.fs) (spk i) (drw i)
      let rest := pmRunFrom cfg spk drw (i + 1) n r.1
      (rest.1, (if r.2.2.2 = true ∨ r.2.1 = true then [(i : ℚ) / cfg.fs] else []) ++ rest.2)

/-! ## Adaptive LIF detector (`AdaptiveLIFDetector`) -/

/-- Python `int()` applied to a rational value: truncation toward zero
(`Int.div` is T-division). -/
def pyInt (q : ℚ) : ℤ := Int.tdiv q.num (q.den : ℤ)

/-- Configuration stored by `AdaptiveLIFDetector.__init__` (lines 55-79).
`theta_base` is deliberately not a field here: it is mutable state of the
detector (updated by homeostasis during `run`), threaded separately. -/
structure DetCfg where
  fs : ℚ
  dt : ℚ
  tau_m : ℚ
  tau_theta : ℚ
  theta_inc : ℚ
  v_reset : ℚ
  v_rest : ℚ
  gain : ℚ
  dead_zone : ℚ
  refractory_s : ℚ
  homeo_rate : ℚ
  target_spikes_per_sec : ℚ
  homeo_window_s : ℚ
  deriving Repr, DecidableEq

/-- `AdaptiveLIFDetector.__init__` (lines 55-79): pure field assignment with
`dt = (1/fs) if dt is None else dt` and `refractory_s = refractory_ms/1000`.
No validation is performed; the only possible failure is the
`ZeroDivisionError` from `1/fs` when `dt` is `None` and `fs = 0`, modelled as
`none`.  Returns the configuration together with the initial mutable
`theta_base`. -/
def mkDetector (fs : ℚ) (dt : Option ℚ)
    (tau_m tau_theta theta_base theta_inc v_reset v_rest gain dead_zone
     refractory_ms homeo_rate target_spikes_per_sec homeo_window_s : ℚ) :
    Option (DetCfg × ℚ) :=
  if dt = none ∧ fs = 0 then none
  else some
    ({ fs := fs
       dt := dt.getD (1 / fs)
       tau_m := tau_m
       tau_theta := tau_theta
       theta_inc := theta_inc
       v_reset := v_reset
       v_rest := v_rest
       gain := gain
       dead_zone := dead_zone
       refractory_s := refractory_ms / 1000
       homeo_rate := homeo_rate
       target_spikes_per_sec := target_spikes_per_sec
       homeo_window_s := homeo_window_s }, theta_base)

/-- `np.min` over a list (line 89).  `np.min` of an empty array raises in
Python; the `[]` case here is a harmless placeholder, as every claim
concerns nonempty signals. -/
def listMin : List ℚ → ℚ
  | [] => 0
  | h :: t => t.foldl min h

/-- `np.max` over a list (lines 90-91); same empty-list caveat as
`listMin`. -/
def listMax : List ℚ → ℚ
  | [] => 0
  | h :: t => t.foldl max h

/-- `np.median` over a list (lines 92-93): middle element of the sorted list
for odd length, mean of the two middle elements for even length.
`np.median([])` is NaN in Python; we return `0` there (again only reachable
for empty signals). -/
def median (l : List ℚ) : ℚ :=
  let s := l.insertionSort (· ≤ ·)
  if l.length = 0 then 0
  else if l.length % 2 = 1 then s.getD (l.length / 2) 0
  else (s.getD (l.length / 2 - 1) 0 + s.getD (l.length / 2) 0) / 2

/-- Lines 89-91 of `run`: shift by the minimum; if the shifted maximum is
positive, divide by it plus `1e-12` (otherwise skip the division). -/
def shiftedOf (sig : List ℚ) : List ℚ :=
  let mn := listMin sig
  let s0 := sig.map (fun x => x - mn)
  let mx := listMax s0
  if 0 < mx then s0.map (fun x => x / (mx + 1 / 10 ^ 12)) else s0

/-- Lines 92-93 of `run`: the robust-spread denominator
`mad = np.median(|shifted - med|) + 1e-9`. -/
def madOf (sig : List ℚ) : ℚ :=
  let sh := shiftedOf sig
  let med := median sh
  median (sh.map (fun x => |x - med|)) + 1 / 10 ^ 9

/-- Lines 89-96 of `run`: the drive current
`I[t] = gain * clip(clip((shifted[t]-med)/mad, -5, 10) - dead_zone, 0, ∞)`. -/
def computeI (cfg : DetCfg) (sig : List ℚ) : List ℚ :=
  let sh := shiftedOf sig
  let med := median sh
  let mad := madOf sig
  sh.map (fun x => cfg.gain * max 0 (npclip ((x - med) / mad) (-5) 10 - cfg.dead_zone))

/-- The detector's scalar loop state at index `t`: current `v[t]`,
`theta[t]`, the mutable `theta_base`, `last_spike_time`, and the
`spike_times` list accumulated so far (appended at the end, as Python
does). -/
structure DetState where
  v : ℚ
  theta : ℚ
  thetaBase : ℚ
  lastSpike : ℚ
  spikeTimes : List ℚ
  deriving Repr, DecidableEq

/-- `int(self.homeo_window_s * self.fs)` (line 115). -/
def homeoN (cfg : DetCfg) : ℤ := pyInt (cfg.homeo_window_s * cfg.fs)

/-- Lines 101-113 of the `run` loop body at index `t`: leaky integration,
refractory gate, spike emission / threshold relaxation.  Returns the state
holding `v[t+1]`, `theta[t+1]` and the spike flag `spikes[t+1]`;
`theta_base` is untouched by this phase. -/
def detSpikePhase (cfg : DetCfg) (It : ℚ) (t : ℕ) (s : DetState) : DetState × Bool :=
  let vInt := s.v + cfg.dt * (-(s.v - cfg.v_rest) / cfg.tau_m + It)
  if ¬((t : ℚ) / cfg.fs - s.lastSpike < cfg.refractory_s) ∧ s.theta ≤ vInt then
    ({ v := cfg.v_reset
       theta := s.theta + cfg.theta_inc
       thetaBase := s.thetaBase
       lastSpike := (t : ℚ) / cfg.fs
       spikeTimes := s.spikeTimes ++ [((t : ℚ) + 1) / cfg.fs] }, true)
  else
    ({ v := vInt
       theta := s.theta + cfg.dt * (-(s.theta - s.thetaBase) / cfg.tau_theta)
       thetaBase := s.thetaBase
       lastSpike := s.lastSpike
       spikeTimes := s.spikeTimes }, false)

/-- Lines 115-120 of the `run` loop body: homeostatic adjustment of
`theta_base` once per homeostatic window, clamped to `[0.001, 1.0]`.
Python's `t % n` on ints is floor-mod (`Int.fmod`); when
`int(homeo_window_s * fs) = 0` Python raises `ZeroDivisionError`, a
configuration no theorem below relies on (`Int.fmod t 0 = t` makes the
condition false here). -/
def detHomeoPhase (cfg : DetCfg) (t : ℕ) (s : DetState) : DetState :=
  if Int.fmod (t : ℤ) (homeoN cfg) = 0 ∧ 0 < t then
    let now := ((t : ℚ) + 1) / cfg.fs
    let wins := s.spikeTimes.filter (fun sp => now - cfg.homeo_window_s ≤ sp)
    let rate := (wins.length : ℚ) / max (1 / 10 ^ 9) cfg.homeo_window_s
    { s with thetaBase :=
        npclip (s.thetaBase + cfg.homeo_rate * (cfg.target_spikes_per_sec - rate)) (1 / 1000) 1 }
  else s

/-- One full iteration of the `run` loop (lines 100-120): spike phase, then
homeostasis (which reads the just-updated `spike_times`). -/
def detStep (cfg : DetCfg) (It : ℚ) (t : ℕ) (s : DetState) : DetState × Bool :=
  let r := detSpikePhase cfg It t s
  (detHomeoPhase cfg t r.1, r.2)

/-- Iterate `detStep` over the drive currents `I[t], I[t+1], ...` starting at
loop index `t`, collecting after each iteration the post-state and the spike
flag (i.e. the array entries `v[t+1]`, `theta[t+1]`, `spikes[t+1]`). -/
def detRunAux (cfg : DetCfg) : ℕ → DetState → List ℚ → List (DetState × Bool)
  | _, _, [] => []
  | t, s, It :: rest =>
      let r := detStep cfg It t s
      r :: detRunAux cfg (t + 1) r.1 rest

/-- The arrays returned by `AdaptiveLIFDetector.run` (line 121), plus the
trace of `theta_base` values (`tbTrace[t]` is the value in effect while loop
index `t` executes) and the final mutable state (`final.spikeTimes` is
`self.spike_times` after the run). -/
structure DetRun where
  I : List ℚ
  v : List ℚ
  theta : List ℚ
  spikes : List Bool
  tbTrace : List ℚ
  final : DetState

/-- The state set up by `AdaptiveLIFDetector.reset` (lines 81-84) plus the
initial `last_spike_time = -1e9` (line 99): `v[0] = 0`, `theta[0] =
theta_base`, empty `spike_times`. -/
def detState0 (tb0 : ℚ) : DetState :=
  { v := 0, theta := tb0, thetaBase := tb0, lastSpike := -(10 ^ 9 : ℚ), spikeTimes := [] }

/-- `AdaptiveLIFDetector.run` (lines 86-121): preprocessing into `I`, then
the loop `for t in range(T-1)` (which consumes `I[0..T-2]`, hence
`dropLast`).  The spike array is Boolean (`spikes[t] = 1` in Python iff
`true` here); `spikes[0] = false` and `v[0] = 0`, `theta[0] = tb0` are the
untouched initial array entries. -/
def detRun (cfg : DetCfg) (tb0 : ℚ) (sig : List ℚ) : DetRun :=
  let I := computeI cfg sig
  match sig with
  | [] => ⟨I, [], [], [], [], detState0 tb0⟩
  | _ :: _ =>
      let s0 := detState0 tb0
      let tr := detRunAux cfg 0 s0 I.dropLast
      ⟨I,
       0 :: tr.map (fun e => e.1.v),
       tb0 :: tr.map (fun e => e.1.theta),
       false :: tr.map (fun e => e.2),
       tb0 :: tr.map (fun e => e.1.thetaBase),
       (tr.map (fun e => e.1)).getLastD s0⟩

/-- The default entry used for `getD` over detector traces; its projections
are the defaults used in the claims' statements. -/
def dfltE : DetState × Bool := (detState0 0, false)

/-- The list of `(state after loop index t, spikes[t+1])` pairs produced by
the `run` loop — the computational core of `detRun`, named so theorems can
speak about individual loop iterations. -/
def detTrace (cfg : DetCfg) (tb0 : ℚ) (sig : List ℚ) : List (DetState × Bool) :=
  detRunAux cfg 0 (detState0 tb0) (computeI cfg sig).dropLast

/-- Detector spike-train invariant: the spike times accumulated so far are
spaced by at least `refractory_s`, and the most recent recorded spike time is
`last_spike_time + 1/fs` (the loop records the spike at `(t+1)/fs` but sets
`last_spike_time = t/fs`). -/
def spikeChainInv (cfg : DetCfg) (s : DetState) : Prop :=
  List.Chain' (fun s1 s2 => cfg.refractory_s ≤ s2 - s1) s.spikeTimes ∧
  ∀ x ∈ s.spikeTimes.getLast?, x = s.lastSpike + 1 / cfg.fs

/-! ## Concrete configurations used by counterexamples and witnesses -/

/-- Placeholder controller configuration (default for `Option.getD`). -/
def pmCfg0 : PMCfg := ⟨0, 0, 0, 0, 0, 0, 0⟩

/-- The controller configuration built from the defaults of
`PacemakerController.__init__` / the demonstration driver:
`fs=250, lower_rate_bpm=50, blanking_ms=40, refractory_ms=200,
pulse_amplitude_mV=2.5, pulse_width_ms=0.5, capture_threshold_mV=1.1`. -/
def pmDefault : PMCfg :=
  (mkPacemaker 250 50 40 200 (5 / 2) (1 / 2) (11 / 10)).getD pmCfg0

/-- Placeholder detector configuration (default for `Option.getD`). -/
def detCfg0 : DetCfg := ⟨0, 0, 0, 0, 0, 0, 0, 0, 0, 0, 0, 0, 0⟩

/-- A small exact-arithmetic detector configuration used for concrete
evaluations: `fs=1` (so `dt=1`), `tau_m=tau_theta=1`, `theta_base=0.1`,
`theta_inc=0.1`, `v_reset=v_rest=0`, `gain=1`, `dead_zone=0`,
`refractory_ms=0`, `homeo_rate=0`, `target=1`, `homeo_window_s=6`. -/
def detSmall : DetCfg × ℚ :=
  (mkDetector 1 none 1 1 (1 / 10) (1 / 10) 0 0 1 0 0 0 1 6).getD (detCfg0, 0)

/-- A detector configuration whose homeostatic window is two samples
(`fs=2`, `homeo_window_s=1`, so `int(homeo_window_s*fs) = 2`), used to
witness a homeostatic update on a short signal. -/
def detHomeo : DetCfg × ℚ :=
  (mkDetector 2 none 1 1 (1 / 10) (1 / 10) 0 0 1 0 0 (1 / 1000) 1 1).getD (detCfg0, 0)

/-- The detector configuration from the defaults of
`AdaptiveLIFDetector.__init__` with `fs=250`. -/
def detDefault : DetCfg × ℚ :=
  (mkDetector 250 none (3 / 100) (7 / 10) (3 / 20) (1 / 4) 0 0 10 (9 / 50)
    150 (8 / 10000) 1 6).getD (detCfg0, 0)

/-! ## Controller lemmas -/

/-- If `step` reports neither an accepted sense nor a pace, it leaves the
whole controller state untouched. -/
lemma pmStep_no_event_state (cfg : PMCfg) (s : PMState) (t : ℚ) (sp d : Bool)
    (h : ¬((pmStep cfg s t sp d).2.2.2 = true ∨ (pmStep cfg s t sp d).2.1 = true)) :
    (pmStep cfg s t sp d).1 = s := by
  push_neg at h
  simp only [pmStep] at *
  split_ifs at h ⊢ with h1 h2 h2 <;> simp_all

/-- Any controller event (accepted sense or pace) at time `t` leaves
`last_event_time = t`. -/
lemma pmStep_event_last (cfg : PMCfg) (s : PMState) (t : ℚ) (sp d : Bool)
    (h : (pmStep cfg s t sp d).2.2.2 = true ∨ (pmStep cfg s t sp d).2.1 = true) :
    (pmStep cfg s t sp d).1.last_event_time = t := by
  by_cases h1 : (sp = true ∧ s.blank_until ≤ t ∧ s.refract_until ≤ t)
  · simp only [pmStep, if_pos h1]
    split <;> rfl
  · simp only [pmStep, if_neg h1]
    by_cases h2 : cfg.escape_interval_s ≤ t - s.last_event_time
    · rw [if_pos h2]
    · exfalso
      simp [pmStep, h1, h2] at h

/-- If the escape deadline has passed at entry, the step produces an event:
either the sense is accepted, or (the timer being untouched) a pace fires. -/
lemma pmStep_event_of_deadline (cfg : PMCfg) (s : PMState) (t : ℚ) (sp d : Bool)
    (h : cfg.escape_interval_s ≤ t - s.last_event_time) :
    (pmStep cfg s t sp d).2.2.2 = true ∨ (pmStep cfg s t sp d).2.1 = true := by
  simp only [pmStep]
  split_ifs with h1 h2 <;> simp_all

/-- With no detector spike presented, a pace fires whenever the escape
deadline has passed — whatever `blank_until` and `refract_until` are. -/
lemma pmStep_pace_of_deadline (cfg : PMCfg) (s : PMState) (t : ℚ) (d : Bool)
    (h : cfg.escape_interval_s ≤ t - s.last_event_time) :
    (pmStep cfg s t false d).2.1 = true := by
  simp only [pmStep]
  split_ifs with h1 h2 <;> simp_all

/-- Chain bound, with the entry `last_event_time` as virtual head: if at
entry of step `i` the deadline is not overshot by more than one sample, each
event (and each consecutive pair of events) of the remaining run lies within
`escape_interval_s + 1/fs` of its predecessor. -/
lemma pmRunFrom_chain_cons (cfg : PMCfg) (hE : 0 < cfg.escape_interval_s)
    (spk drw : ℕ → Bool) :
    ∀ (n i : ℕ) (s : PMState),
      (i : ℚ) / cfg.fs - s.last_event_time < cfg.escape_interval_s + 1 / cfg.fs →
      List.Chain' (fun e1 e2 => e2 - e1 ≤ cfg.escape_interval_s + 1 / cfg.fs)
        (s.last_event_time :: (pmRunFrom cfg spk drw i n s).2) := by
  intro n
  induction n with
  | zero => intro i s _; simp [pmRunFrom]
  | succ n ih =>
    intro i s hH
    simp only [pmRunFrom]
    by_cases hev : (pmStep cfg s ((i : ℚ) / cfg.fs) (spk i) (drw i)).2.2.2 = true ∨
        (pmStep cfg s ((i : ℚ) / cfg.fs) (spk i) (drw i)).2.1 = true
    · rw [if_pos hev, List.singleton_append, List.chain'_cons]
      constructor
      · linarith
      · have hlast := pmStep_event_last cfg s ((i : ℚ) / cfg.fs) (spk i) (drw i) hev
        have hbound : ((i + 1 : ℕ) : ℚ) / cfg.fs -
            (pmStep cfg s ((i : ℚ) / cfg.fs) (spk i) (drw i)).1.last_event_time <
            cfg.escape_interval_s + 1 / cfg.fs := by
          rw [hlast]
          push_cast
          rw [add_div]
          linarith
        have := ih (i + 1) (pmStep cfg s ((i : ℚ) / cfg.fs) (spk i) (drw i)).1 hbound
        rwa [hlast] at this
    · rw [if_neg hev, List.nil_append]
      have hst := pmStep_no_event_state cfg s ((i : ℚ) / cfg.fs) (spk i) (drw i) hev
      have hdl : (i : ℚ) / cfg.fs - s.last_event_time < cfg.escape_interval_s := by
        by_contra hc
        exact hev (pmStep_event_of_deadline cfg s ((i : ℚ) / cfg.fs) (spk i) (drw i)
          (not_lt.mp hc))
      have hbound : ((i + 1 : ℕ) : ℚ) / cfg.fs - s.last_event_time <
          cfg.escape_interval_s + 1 / cfg.fs := by
        push_cast
        rw [add_div]
        linarith
      rw [hst]
      exact ih (i + 1) s hbound

/-- The event times of any controller run at sample times `i/fs` form a
chain with gaps at most `escape_interval_s + 1/fs`. -/
lemma pmRunFrom_chain (cfg : PMCfg) (hE : 0 < cfg.escape_interval_s)
    (spk drw : ℕ → Bool) :
    ∀ (n i : ℕ) (s : PMState),
      List.Chain' (fun e1 e2 => e2 - e1 ≤ cfg.escape_interval_s + 1 / cfg.fs)
        (pmRunFrom cfg spk drw i n s).2 := by
  intro n
  induction n with
  | zero => intro i s; simp [pmRunFrom]
  | succ n ih =>
    intro i s
    simp only [pmRunFrom]
    by_cases hev : (pmStep cfg s ((i : ℚ) / cfg.fs) (spk i) (drw i)).2.2.2 = true ∨
        (pmStep cfg s ((i : ℚ) / cfg.fs) (spk i) (drw i)).2.1 = true
    · rw [if_pos hev, List.singleton_append]
      have hlast := pmStep_event_last cfg s ((i : ℚ) / cfg.fs) (spk i) (drw i) hev
      have hbound : ((i + 1 : ℕ) : ℚ) / cfg.fs -
          (pmStep cfg s ((i : ℚ) / cfg.fs) (spk i) (drw i)).1.last_event_time <
          cfg.escape_interval_s + 1 / cfg.fs := by
        rw [hlast]
        push_cast
        rw [add_div]
        linarith
      have := pmRunFrom_chain_cons cfg hE spk drw n (i + 1)
        (pmStep cfg s ((i : ℚ) / cfg.fs) (spk i) (drw i)).1 hbound
      rwa [hlast] at this
    · rw [if_neg hev, List.nil_append]
      have hst := pmStep_no_event_state cfg s ((i : ℚ) / cfg.fs) (spk i) (drw i) hev
      rw [hst]
      exact ih (i + 1) s

/-- Controller timer invariant: `blank_until` never exceeds
`last_event_time + blanking_s` (established by `reset` and preserved by
every `step`). -/
def pmBlankInv (cfg : PMCfg) (s : PMState) : Prop :=
  s.blank_until ≤ s.last_event_time + cfg.blanking_s

lemma pmBlankInv_reset (cfg : PMCfg) (hB : 0 ≤ cfg.blanking_s) :
    pmBlankInv cfg pmReset := by
  simp only [pmBlankInv, pmReset]
  linarith

/-- A single `step` never decreases `blank_until` or `refract_until`, and
preserves the timer invariant — for an arbitrary step time. -/
lemma pmStep_mono (cfg : PMCfg) (s : PMState) (t : ℚ) (sp d : Bool)
    (hE : 0 ≤ cfg.escape_interval_s) (hB : 0 ≤ cfg.blanking_s)
    (hR : 0 ≤ cfg.refractory_s) (hJ : pmBlankInv cfg s) :
    s.blank_until ≤ (pmStep cfg s t sp d).1.blank_until ∧
    s.refract_until ≤ (pmStep cfg s t sp d).1.refract_until ∧
    pmBlankInv cfg (pmStep cfg s t sp d).1 := by
  simp only [pmBlankInv] at hJ ⊢
  by_cases h1 : (sp = true ∧ s.blank_until ≤ t ∧ s.refract_until ≤ t)
  · obtain ⟨hsp, hbt, hrt⟩ := h1
    simp only [pmStep, if_pos (show sp = true ∧ s.blank_until ≤ t ∧ s.refract_until ≤ t
      from ⟨hsp, hbt, hrt⟩)]
    split
    all_goals refine ⟨?_, ?_, ?_⟩
    all_goals simp
    all_goals linarith
  · simp only [pmStep, if_neg h1]
    by_cases h2 : cfg.escape_interval_s ≤ t - s.last_event_time
    · rw [if_pos h2]
      refine ⟨?_, ?_, ?_⟩
      all_goals simp
      all_goals linarith
    · rw [if_neg h2]
      exact ⟨le_refl _, le_refl _, hJ⟩

lemma pmStates_head (cfg : PMCfg) (s : PMState) (l : List (ℚ × Bool × Bool)) :
    (pmStates cfg s l).head? = some s := by
  cases l with
  | nil => rfl
  | cons x rest => obtain ⟨t, sp, d⟩ := x; rfl

lemma pmStates_chain (cfg : PMCfg) (hE : 0 ≤ cfg.escape_interval_s)
    (hB : 0 ≤ cfg.blanking_s) (hR : 0 ≤ cfg.refractory_s) :
    ∀ (inputs : List (ℚ × Bool × Bool)) (s : PMState), pmBlankInv cfg s →
      List.Chain'
        (fun a b => a.blank_until ≤ b.blank_until ∧ a.refract_until ≤ b.refract_until)
        (pmStates cfg s inputs) := by
  intro inputs
  induction inputs with
  | nil => intro s _; exact List.chain'_singleton s
  | cons x rest ih =>
    intro s hJ
    obtain ⟨t, sp, d⟩ := x
    have h := pmStep_mono cfg s t sp d hE hB hR hJ
    simp only [pmStates]
    refine (ih (pmStep cfg s t sp d).1 h.2.2).cons' ?_
    intro y hy
    rw [pmStates_head] at hy
    simp only [Option.mem_def, Option.some.injEq] at hy
    subst hy
    exact ⟨h.1, h.2.1⟩

/-- **C7**: across any sequence of `step` calls starting from `reset`, the
fields `blank_until` and `refract_until` are monotonically non-decreasing
along the state trajectory (proved for arbitrary step times, which subsumes
the increasing times supplied by the simulator loop). -/
theorem controller_timers_monotone (cfg : PMCfg) (hE : 0 ≤ cfg.escape_interval_s)
    (hB : 0 ≤ cfg.blanking_s) (hR : 0 ≤ cfg.refractory_s)
    (inputs : List (ℚ × Bool × Bool)) :
    List.Chain'
      (fun a b => a.blank_until ≤ b.blank_until ∧ a.refract_until ≤ b.refract_until)
      (pmStates cfg pmReset inputs) :=
  pmStates_chain cfg hE hB hR inputs pmReset (pmBlankInv_reset cfg hB)

theorem controller_timers_monotone_witness :
    List.Chain'
      (fun a b => a.blank_until ≤ b.blank_until ∧ a.refract_until ≤ b.refract_until)
      (pmStates pmDefault pmReset [(0, false, false), (1 / 10, true, false), (3, false, true)]) :=
  controller_timers_monotone pmDefault (by decide) (by decide) (by decide) _

/-- **C1**: when the controller is stepped at the sample times `i/fs`, the
chronological list of controller events (accepted senses and paces) has
consecutive gaps of at most `escape_interval_s + 1/fs`; and a pace is issued
at any step whose time satisfies `t_s - last_event_time ≥ escape_interval_s`
when no spike is presented, independent of blanking (no assumption on
`blank_until` or `refract_until` is made). -/
theorem escape_interval_guarantee (cfg : PMCfg) (hE : 0 < cfg.escape_interval_s)
    (spk drw : ℕ → Bool) (i n : ℕ) (s : PMState) :
    List.Chain' (fun e1 e2 => e2 - e1 ≤ cfg.escape_interval_s + 1 / cfg.fs)
      (pmRunFrom cfg spk drw i n s).2 ∧
    ∀ (s' : PMState) (t : ℚ) (d : Bool),
      cfg.escape_interval_s ≤ t - s'.last_event_time →
      (pmStep cfg s' t false d).2.1 = true :=
  ⟨pmRunFrom_chain cfg hE spk drw n i s,
   fun s' t d h => pmStep_pace_of_deadline cfg s' t d h⟩

theorem escape_interval_guarantee_witness :
    List.Chain'
      (fun e1 e2 => e2 - e1 ≤ pmDefault.escape_interval_s + 1 / pmDefault.fs)
      (pmRunFrom pmDefault (fun i => i % 2 = 0) (fun _ => true) 0 6 pmReset).2 ∧
    (pmStep pmDefault pmReset 0 false true).2.1 = true :=
  ⟨(escape_interval_guarantee pmDefault (by decide) (fun i => i % 2 = 0)
      (fun _ => true) 0 6 pmReset).1,
   (escape_interval_guarantee pmDefault (by decide) (fun i => i % 2 = 0)
      (fun _ => true) 0 6 pmReset).2 pmReset 0 true (by decide)⟩

/-- **C10**: a quiescent step — no acceptable sense and escape deadline not
reached — returns `(pace, captured, accepted) = (false, false, false)` and
leaves the controller state (all timers and both histories) unchanged. -/
theorem quiescent_step_frame (cfg : PMCfg) (s : PMState) (t_s : ℚ) (sp d : Bool)
    (hq : ¬(sp = true ∧ s.blank_until ≤ t_s ∧ s.refract_until ≤ t_s))
    (hdl : t_s - s.last_event_time < cfg.escape_interval_s) :
    pmStep cfg s t_s sp d = (s, false, false, false) := by
  simp only [pmStep, if_neg hq]
  rw [if_neg (not_le.mpr hdl)]
  simp [hq]

theorem quiescent_step_frame_witness :
    pmStep pmDefault
      { last_event_time := 0, blank_until := 1 / 25, refract_until := -(10 ^ 9 : ℚ),
        pacing_history := [(0, false)], sensed_history := [] } (1 / 10) false false
    = ({ last_event_time := 0, blank_until := 1 / 25, refract_until := -(10 ^ 9 : ℚ),
         pacing_history := [(0, false)], sensed_history := [] }, false, false, false) :=
  quiescent_step_frame pmDefault _ _ _ _ (by decide) (by decide)

/-- **C3 counterexample**: with the default configuration
(`blanking_ms = 40`, `refractory_ms = 200`), the controller paces at
`t_p = 0`, and a detector spike presented at `t_s = 0.1` — inside the
claimed suppression window `[t_p, t_p + refractory_s) = [0, 0.2)` — is
nevertheless *accepted*: a pace sets only `blank_until`, never
`refract_until`. -/
theorem pace_refractory_counterexample :
    (pmStep pmDefault pmReset 0 false false).2.1 = true ∧
    (0 : ℚ) ≤ 1 / 10 ∧ (1 / 10 : ℚ) < 0 + pmDefault.refractory_s ∧
    (pmStep pmDefault (pmStep pmDefault pmReset 0 false false).1
      (1 / 10) true false).2.2.2 = true := by
  decide

lemma pmStep_pace_blank (cfg : PMCfg) (s : PMState) (t : ℚ) (sp d : Bool)
    (h : (pmStep cfg s t sp d).2.1 = true) :
    (pmStep cfg s t sp d).1.blank_until = t + cfg.blanking_s := by
  by_cases h1 : (sp = true ∧ s.blank_until ≤ t ∧ s.refract_until ≤ t)
  · simp only [pmStep, if_pos h1] at h ⊢
    by_cases h2 : cfg.escape_interval_s ≤ t - t
    · rw [if_pos h2]
    · rw [if_neg h2] at h
      simp at h
  · simp only [pmStep, if_neg h1] at h ⊢
    by_cases h2 : cfg.escape_interval_s ≤ t - s.last_event_time
    · rw [if_pos h2]
    · rw [if_neg h2] at h
      simp at h

lemma pmStep_blank_persist (cfg : PMCfg) (s : PMState) (t : ℚ) (sp d : Bool)
    (x : ℚ) (hx : x + cfg.blanking_s ≤ s.blank_until) (ht : x ≤ t) :
    x + cfg.blanking_s ≤ (pmStep cfg s t sp d).1.blank_until := by
  by_cases h1 : (sp = true ∧ s.blank_until ≤ t ∧ s.refract_until ≤ t)
  · simp only [pmStep, if_pos h1]
    split
    · simp; linarith
    · simpa using hx
  · simp only [pmStep, if_neg h1]
    split
    · simp; linarith
    · exact hx

lemma pmRunSteps_blank_persist (cfg : PMCfg) (x : ℚ) :
    ∀ (steps : List (ℚ × Bool × Bool)) (s : PMState),
      (∀ u ∈ steps, x ≤ u.1) → x + cfg.blanking_s ≤ s.blank_until →
      x + cfg.blanking_s ≤ (pmRunSteps cfg s steps).blank_until := by
  intro steps
  induction steps with
  | nil => intro s _ hx; exact hx
  | cons u rest ih =>
    intro s hts hx
    obtain ⟨t, sp, d⟩ := u
    simp only [pmRunSteps]
    exact ih _ (fun v hv => hts v (List.mem_cons_of_mem _ hv))
      (pmStep_blank_persist cfg s t sp d x hx (hts (t, sp, d) (List.mem_cons_self _ _)))

lemma pmStep_blocked (cfg : PMCfg) (s : PMState) (t : ℚ) (sp d : Bool)
    (h : t < s.blank_until) : (pmStep cfg s t sp d).2.2.2 = false := by
  have h1 : ¬(sp = true ∧ s.blank_until ≤ t ∧ s.refract_until ≤ t) := by
    rintro ⟨-, hb, -⟩; linarith
  simp only [pmStep, if_neg h1]
  split <;> simp [h1]

/-- **C3 amended**: after the controller delivers a pace at time `t_p`,
sensing is suppressed for the *blanking* window (not the refractory window,
which a pace never sets): at every subsequent step at time
`t_s < t_p + blanking_s` (all step times being `≥ t_p`), a presented
detector spike is not accepted. -/
theorem pace_blanking_suppression (cfg : PMCfg) (s0 : PMState) (t_p : ℚ) (sp0 d0 : Bool)
    (hpace : (pmStep cfg s0 t_p sp0 d0).2.1 = true)
    (steps : List (ℚ × Bool × Bool)) (hts : ∀ u ∈ steps, t_p ≤ u.1)
    (t_s : ℚ) (sp d : Bool) (h2 : t_s < t_p + cfg.blanking_s) :
    (pmStep cfg (pmRunSteps cfg (pmStep cfg s0 t_p sp0 d0).1 steps) t_s sp d).2.2.2
      = false := by
  apply pmStep_blocked
  calc t_s < t_p + cfg.blanking_s := h2
    _ ≤ _ := pmRunSteps_blank_persist cfg t_p steps _ hts
      (le_of_eq (pmStep_pace_blank cfg s0 t_p sp0 d0 hpace).symm)

theorem pace_blanking_suppression_witness :
    (pmStep pmDefault
      (pmRunSteps pmDefault (pmStep pmDefault pmReset 0 false false).1
        [(1 / 100, false, false)]) (1 / 50) true false).2.2.2 = false :=
  pace_blanking_suppression pmDefault pmReset 0 false false (by decide)
    [(1 / 100, false, false)] (by decide) (1 / 50) true false (by decide)

/-- **C4 counterexample**: constructing the controller with the non-positive
rate `lower_rate_bpm = -50` (and the detector with `fs = -250`) succeeds —
no configuration error is raised — yielding a negative escape interval, and
the simulation steps happily run with it. -/
theorem no_config_validation_counterexample :
    (mkPacemaker 250 (-50) 40 200 (5 / 2) (1 / 2) (11 / 10)).isSome = true ∧
    ((mkPacemaker 250 (-50) 40 200 (5 / 2) (1 / 2) (11 / 10)).getD pmCfg0).escape_interval_s
      = -(6 / 5) ∧
    (pmStep ((mkPacemaker 250 (-50) 40 200 (5 / 2) (1 / 2) (11 / 10)).getD pmCfg0)
      pmReset 0 false false).2.1 = true ∧
    (mkDetector (-250) none (3 / 100) (7 / 10) (3 / 20) (1 / 4) 0 0 10 (9 / 50)
      150 (8 / 10000) 1 6).isSome = true := by
  decide

/-- **C4 amended**: neither constructor validates its configuration.
Construction succeeds for arbitrary (including non-positive) rates, time
constants and sample rates; the only construction-time failure is the
`ZeroDivisionError` from `60.0 / lower_rate_bpm` when `lower_rate_bpm = 0`,
or from `1/fs` when the detector's `fs = 0` with `dt` unspecified. -/
theorem no_config_validation (fs bpm bms rms amp w cth dfs : ℚ) (dt : Option ℚ)
    (a b c e f g h i j k l m : ℚ) :
    ((mkPacemaker fs bpm bms rms amp w cth).isSome = true ↔ bpm ≠ 0) ∧
    ((mkDetector dfs dt a b c e f g h i j k l m).isSome = true ↔
      (dt ≠ none ∨ dfs ≠ 0)) := by
  constructor
  · simp only [mkPacemaker]
    split <;> simp_all
  · simp only [mkDetector]
    split
    all_goals simp_all
    all_goals tauto

theorem no_config_validation_witness :
    ((mkPacemaker 250 50 40 200 (5 / 2) (1 / 2) (11 / 10)).isSome = true ↔
      (50 : ℚ) ≠ 0) ∧
    ((mkDetector 250 none (3 / 100) (7 / 10) (3 / 20) (1 / 4) 0 0 10 (9 / 50)
      150 (8 / 10000) 1 6).isSome = true ↔
      ((none : Option ℚ) ≠ none ∨ (250 : ℚ) ≠ 0)) :=
  no_config_validation 250 50 40 200 (5 / 2) (1 / 2) (11 / 10) 250 none
    (3 / 100) (7 / 10) (3 / 20) (1 / 4) 0 0 10 (9 / 50) 150 (8 / 10000) 1 6

/-! ## Detector lemmas -/

lemma npclip_bounds (x lo hi : ℚ) (h : lo ≤ hi) :
    lo ≤ npclip x lo hi ∧ npclip x lo hi ≤ hi :=
  ⟨le_min h (le_max_left lo x), min_le_left hi _⟩

lemma detHomeoPhase_v (cfg : DetCfg) (t : ℕ) (s : DetState) :
    (detHomeoPhase cfg t s).v = s.v := by
  unfold detHomeoPhase; split <;> rfl

lemma detHomeoPhase_theta (cfg : DetCfg) (t : ℕ) (s : DetState) :
    (detHomeoPhase cfg t s).theta = s.theta := by
  unfold detHomeoPhase; split <;> rfl

lemma detHomeoPhase_lastSpike (cfg : DetCfg) (t : ℕ) (s : DetState) :
    (detHomeoPhase cfg t s).lastSpike = s.lastSpike := by
  unfold detHomeoPhase; split <;> rfl

lemma detHomeoPhase_spikeTimes (cfg : DetCfg) (t : ℕ) (s : DetState) :
    (detHomeoPhase cfg t s).spikeTimes = s.spikeTimes := by
  unfold detHomeoPhase; split <;> rfl

lemma detStep_spikeTimes_mono (cfg : DetCfg) (It : ℚ) (t : ℕ) (s : DetState) :
    s.spikeTimes ⊆ (detStep cfg It t s).1.spikeTimes := by
  simp only [detStep, detHomeoPhase_spikeTimes, detSpikePhase]
  split
  · exact List.subset_append_left _ _
  · exact List.Subset.refl _

lemma detRunAux_length (cfg : DetCfg) :
    ∀ (l : List ℚ) (t : ℕ) (s : DetState), (detRunAux cfg t s l).length = l.length := by
  intro l
  induction l with
  | nil => intro t s; rfl
  | cons x rest ih => intro t s; simp only [detRunAux, List.length_cons, ih]

lemma getD_map_fst_v (l : List (DetState × Bool)) (k : ℕ) (h : k < l.length) :
    (l.map (fun e => e.1.v)).getD k 0 = (l.getD k dfltE).1.v := by
  rw [List.getD_eq_getElem _ _ (by simpa using h), List.getD_eq_getElem _ _ h,
    List.getElem_map]

lemma getD_map_fst_theta (l : List (DetState × Bool)) (k : ℕ) (h : k < l.length) :
    (l.map (fun e => e.1.theta)).getD k 0 = (l.getD k dfltE).1.theta := by
  rw [List.getD_eq_getElem _ _ (by simpa using h), List.getD_eq_getElem _ _ h,
    List.getElem_map]

lemma getD_map_fst_thetaBase (l : List (DetState × Bool)) (k : ℕ) (h : k < l.length) :
    (l.map (fun e => e.1.thetaBase)).getD k 0 = (l.getD k dfltE).1.thetaBase := by
  rw [List.getD_eq_getElem _ _ (by simpa using h), List.getD_eq_getElem _ _ h,
    List.getElem_map]

lemma getD_map_snd (l : List (DetState × Bool)) (k : ℕ) (h : k < l.length) :
    (l.map (fun e => e.2)).getD k false = (l.getD k dfltE).2 := by
  rw [List.getD_eq_getElem _ _ (by simpa using h), List.getD_eq_getElem _ _ h,
    List.getElem_map]

lemma getD_dropLast (l : List ℚ) (k : ℕ) (h : k < l.dropLast.length) :
    l.dropLast.getD k 0 = l.getD k 0 := by
  rw [List.getD_eq_getElem _ _ h, List.getD_eq_getElem _ _ (by simp at h; omega),
    List.getElem_dropLast]

/-- Each trace entry is `detStep` applied to the drive current at its index
and the preceding state (the start state for the first entry). -/
lemma detRunAux_getD (cfg : DetCfg) :
    ∀ (l : List ℚ) (t0 : ℕ) (s : DetState) (k : ℕ), k < l.length →
      (detRunAux cfg t0 s l).getD k dfltE =
        detStep cfg (l.getD k 0) (t0 + k)
          (if k = 0 then s else ((detRunAux cfg t0 s l).getD (k - 1) dfltE).1) := by
  intro l
  induction l with
  | nil => intro t0 s k h; simp at h
  | cons x rest ih =>
    intro t0 s k h
    match k with
    | 0 => simp [detRunAux]
    | Nat.succ k' =>
      have hk' : k' < rest.length := by simpa using h
      simp only [detRunAux, List.getD_cons_succ]
      rw [ih (t0 + 1) (detStep cfg x t0 s).1 k' hk']
      have harith : t0 + 1 + k' = t0 + (k' + 1) := by omega
      rw [harith]
      match k' with
      | 0 => simp
      | Nat.succ k'' => simp

/-- The start state's spike times survive (as a sublist of) the final
state's. -/
lemma detRunAux_start_subset (cfg : DetCfg) :
    ∀ (l : List ℚ) (t0 : ℕ) (s : DetState),
      s.spikeTimes ⊆ (((detRunAux cfg t0 s l).map (fun e => e.1)).getLastD s).spikeTimes := by
  intro l
  induction l with
  | nil => intro t0 s; exact List.Subset.refl _
  | cons x rest ih =>
    intro t0 s
    simp only [detRunAux, List.map_cons, List.getLastD_cons]
    exact (detStep_spikeTimes_mono cfg x t0 s).trans (ih (t0 + 1) _)

/-- Every intermediate state's spike times are contained in the final
state's. -/
lemma detRunAux_getD_subset (cfg : DetCfg) :
    ∀ (l : List ℚ) (t0 : ℕ) (s : DetState) (k : ℕ), k < l.length →
      ((detRunAux cfg t0 s l).getD k dfltE).1.spikeTimes ⊆
        (((detRunAux cfg t0 s l).map (fun e => e.1)).getLastD s).spikeTimes := by
  intro l
  induction l with
  | nil => intro t0 s k h; simp at h
  | cons x rest ih =>
    intro t0 s k h
    simp only [detRunAux, List.map_cons, List.getLastD_cons]
    match k with
    | 0 =>
      simpa using detRunAux_start_subset cfg rest (t0 + 1) (detStep cfg x t0 s).1
    | Nat.succ k' =>
      simpa using ih (t0 + 1) (detStep cfg x t0 s).1 k' (by simpa using h)

lemma computeI_length (cfg : DetCfg) (sig : List ℚ) :
    (computeI cfg sig).length = sig.length := by
  simp only [computeI, shiftedOf, List.length_map]
  split <;> simp

lemma detRun_eq (cfg : DetCfg) (tb0 : ℚ) (a : ℚ) (rest : List ℚ) :
    detRun cfg tb0 (a :: rest) =
      ⟨computeI cfg (a :: rest),
       0 :: (detTrace cfg tb0 (a :: rest)).map (fun e => e.1.v),
       tb0 :: (detTrace cfg tb0 (a :: rest)).map (fun e => e.1.theta),
       false :: (detTrace cfg tb0 (a :: rest)).map (fun e => e.2),
       tb0 :: (detTrace cfg tb0 (a :: rest)).map (fun e => e.1.thetaBase),
       ((detTrace cfg tb0 (a :: rest)).map (fun e => e.1)).getLastD (detState0 tb0)⟩ :=
  rfl

lemma detTrace_length (cfg : DetCfg) (tb0 : ℚ) (sig : List ℚ) :
    (detTrace cfg tb0 sig).length = sig.length - 1 := by
  simp [detTrace, detRunAux_length, computeI_length]

lemma detTrace_getD (cfg : DetCfg) (tb0 : ℚ) (sig : List ℚ) (t : ℕ)
    (h : t + 1 < sig.length) :
    (detTrace cfg tb0 sig).getD t dfltE =
      detStep cfg ((computeI cfg sig).getD t 0) t
        (if t = 0 then detState0 tb0
         else ((detTrace cfg tb0 sig).getD (t - 1) dfltE).1) := by
  have hlt : t < (computeI cfg sig).dropLast.length := by
    simp [computeI_length]
    omega
  have := detRunAux_getD cfg (computeI cfg sig).dropLast 0 (detState0 tb0) t hlt
  rw [getD_dropLast _ _ hlt, Nat.zero_add] at this
  simpa [detTrace] using this

lemma detRun_v_getD_succ (cfg : DetCfg) (tb0 : ℚ) (a : ℚ) (rest : List ℚ) (t : ℕ)
    (h : t + 1 < (a :: rest).length) :
    (detRun cfg tb0 (a :: rest)).v.getD (t + 1) 0
      = ((detTrace cfg tb0 (a :: rest)).getD t dfltE).1.v := by
  rw [detRun_eq]
  simp only [List.getD_cons_succ]
  exact getD_map_fst_v _ t (by rw [detTrace_length]; simpa using h)

lemma detRun_theta_getD_succ (cfg : DetCfg) (tb0 : ℚ) (a : ℚ) (rest : List ℚ) (t : ℕ)
    (h : t + 1 < (a :: rest).length) :
    (detRun cfg tb0 (a :: rest)).theta.getD (t + 1) 0
      = ((detTrace cfg tb0 (a :: rest)).getD t dfltE).1.theta := by
  rw [detRun_eq]
  simp only [List.getD_cons_succ]
  exact getD_map_fst_theta _ t (by rw [detTrace_length]; simpa using h)

lemma detRun_tbTrace_getD_succ (cfg : DetCfg) (tb0 : ℚ) (a : ℚ) (rest : List ℚ) (t : ℕ)
    (h : t + 1 < (a :: rest).length) :
    (detRun cfg tb0 (a :: rest)).tbTrace.getD (t + 1) 0
      = ((detTrace cfg tb0 (a :: rest)).getD t dfltE).1.thetaBase := by
  rw [detRun_eq]
  simp only [List.getD_cons_succ]
  exact getD_map_fst_thetaBase _ t (by rw [detTrace_length]; simpa using h)

lemma detRun_spikes_getD_succ (cfg : DetCfg) (tb0 : ℚ) (a : ℚ) (rest : List ℚ) (t : ℕ)
    (h : t + 1 < (a :: rest).length) :
    (detRun cfg tb0 (a :: rest)).spikes.getD (t + 1) false
      = ((detTrace cfg tb0 (a :: rest)).getD t dfltE).2 := by
  rw [detRun_eq]
  simp only [List.getD_cons_succ]
  exact getD_map_snd _ t (by rw [detTrace_length]; simpa using h)

lemma detStep_fst (cfg : DetCfg) (It : ℚ) (t : ℕ) (s : DetState) :
    (detStep cfg It t s).1 = detHomeoPhase cfg t (detSpikePhase cfg It t s).1 := rfl

lemma detStep_snd (cfg : DetCfg) (It : ℚ) (t : ℕ) (s : DetState) :
    (detStep cfg It t s).2 = (detSpikePhase cfg It t s).2 := rfl

lemma detSpikePhase_spike (cfg : DetCfg) (It : ℚ) (t : ℕ) (s : DetState)
    (hc : ¬((t : ℚ) / cfg.fs - s.lastSpike < cfg.refractory_s) ∧
      s.theta ≤ s.v + cfg.dt * (-(s.v - cfg.v_rest) / cfg.tau_m + It)) :
    detSpikePhase cfg It t s =
      ({ v := cfg.v_reset
         theta := s.theta + cfg.theta_inc
         thetaBase := s.thetaBase
         lastSpike := (t : ℚ) / cfg.fs
         spikeTimes := s.spikeTimes ++ [((t : ℚ) + 1) / cfg.fs] }, true) := by
  simp only [detSpikePhase]
  rw [if_pos hc]

lemma detSpikePhase_no_spike (cfg : DetCfg) (It : ℚ) (t : ℕ) (s : DetState)
    (hc : ¬(¬((t : ℚ) / cfg.fs - s.lastSpike < cfg.refractory_s) ∧
      s.theta ≤ s.v + cfg.dt * (-(s.v - cfg.v_rest) / cfg.tau_m + It))) :
    detSpikePhase cfg It t s =
      ({ v := s.v + cfg.dt * (-(s.v - cfg.v_rest) / cfg.tau_m + It)
         theta := s.theta + cfg.dt * (-(s.theta - s.thetaBase) / cfg.tau_theta)
         thetaBase := s.thetaBase
         lastSpike := s.lastSpike
         spikeTimes := s.spikeTimes }, false) := by
  simp only [detSpikePhase]
  rw [if_neg hc]

/-- The arrays returned by `run` at index `t` are the fields of the loop
state to which iteration `t` applies `detStep`. -/
lemma detRun_prev (cfg : DetCfg) (tb0 : ℚ) (a : ℚ) (rest : List ℚ) (t : ℕ)
    (h : t + 1 < (a :: rest).length) :
    ∃ prev : DetState,
      (detRun cfg tb0 (a :: rest)).v.getD t 0 = prev.v ∧
      (detRun cfg tb0 (a :: rest)).theta.getD t 0 = prev.theta ∧
      (detRun cfg tb0 (a :: rest)).tbTrace.getD t 0 = prev.thetaBase ∧
      (detTrace cfg tb0 (a :: rest)).getD t dfltE
        = detStep cfg ((detRun cfg tb0 (a :: rest)).I.getD t 0) t prev := by
  refine ⟨if t = 0 then detState0 tb0
    else ((detTrace cfg tb0 (a :: rest)).getD (t - 1) dfltE).1, ?_, ?_, ?_, ?_⟩
  · match t with
    | 0 => simp [detRun_eq, detState0]
    | Nat.succ u =>
      rw [detRun_v_getD_succ cfg tb0 a rest u (by omega)]
      simp
  · match t with
    | 0 => simp [detRun_eq, detState0]
    | Nat.succ u =>
      rw [detRun_theta_getD_succ cfg tb0 a rest u (by omega)]
      simp
  · match t with
    | 0 => simp [detRun_eq, detState0]
    | Nat.succ u =>
      rw [detRun_tbTrace_getD_succ cfg tb0 a rest u (by omega)]
      simp
  · have hI : (detRun cfg tb0 (a :: rest)).I = computeI cfg (a :: rest) := by
      rw [detRun_eq]
    rw [hI]
    exact detTrace_getD cfg tb0 (a :: rest) t h

/-- **C8**: per-step detector semantics over the returned arrays.  If no
spike is emitted at sample `t+1`, then `v[t+1]` is the leaky integration of
`v[t]` under `I[t]` and `theta[t+1]` relaxes toward the current `theta_base`
(exposed as `tbTrace[t]`); if a spike is emitted at `t+1`, then
`v[t+1] = v_reset`, `theta[t+1] = theta[t] + theta_inc`, and `(t+1)/fs` is
recorded in `spike_times`. -/
theorem detector_step_semantics (cfg : DetCfg) (tb0 : ℚ) (sig : List ℚ) (t : ℕ)
    (ht : t + 1 < sig.length) :
    ((detRun cfg tb0 sig).spikes.getD (t + 1) false = true →
      (detRun cfg tb0 sig).v.getD (t + 1) 0 = cfg.v_reset ∧
      (detRun cfg tb0 sig).theta.getD (t + 1) 0
        = (detRun cfg tb0 sig).theta.getD t 0 + cfg.theta_inc ∧
      ((t : ℚ) + 1) / cfg.fs ∈ (detRun cfg tb0 sig).final.spikeTimes) ∧
    ((detRun cfg tb0 sig).spikes.getD (t + 1) false = false →
      (detRun cfg tb0 sig).v.getD (t + 1) 0
        = (detRun cfg tb0 sig).v.getD t 0
          + cfg.dt * (-((detRun cfg tb0 sig).v.getD t 0 - cfg.v_rest) / cfg.tau_m
            + (detRun cfg tb0 sig).I.getD t 0) ∧
      (detRun cfg tb0 sig).theta.getD (t + 1) 0
        = (detRun cfg tb0 sig).theta.getD t 0
          + cfg.dt * (-((detRun cfg tb0 sig).theta.getD t 0
            - (detRun cfg tb0 sig).tbTrace.getD t 0) / cfg.tau_theta)) := by
  match sig with
  | [] => simp at ht
  | a :: rest =>
    obtain ⟨prev, hv0, hth0, htb0, hkey⟩ := detRun_prev cfg tb0 a rest t ht
    have hv1 := detRun_v_getD_succ cfg tb0 a rest t ht
    have hth1 := detRun_theta_getD_succ cfg tb0 a rest t ht
    have hspk1 := detRun_spikes_getD_succ cfg tb0 a rest t ht
    have hsub : ((detTrace cfg tb0 (a :: rest)).getD t dfltE).1.spikeTimes ⊆
        (detRun cfg tb0 (a :: rest)).final.spikeTimes := by
      have hfin : (detRun cfg tb0 (a :: rest)).final
          = ((detTrace cfg tb0 (a :: rest)).map (fun e => e.1)).getLastD (detState0 tb0) := by
        rw [detRun_eq]
      rw [hfin]
      refine detRunAux_getD_subset cfg (computeI cfg (a :: rest)).dropLast 0
        (detState0 tb0) t ?_
      simp only [List.length_dropLast, computeI_length]
      simp only [List.length_cons] at ht ⊢
      omega
    rw [hkey] at hsub
    rw [hv1, hth1, hspk1, hv0, hth0, htb0, hkey]
    by_cases hc : ¬((t : ℚ) / cfg.fs - prev.lastSpike < cfg.refractory_s) ∧
        prev.theta ≤ prev.v + cfg.dt * (-(prev.v - cfg.v_rest) / cfg.tau_m
          + (detRun cfg tb0 (a :: rest)).I.getD t 0)
    · have hchar := detSpikePhase_spike cfg ((detRun cfg tb0 (a :: rest)).I.getD t 0) t prev hc
      constructor
      · intro _
        refine ⟨?_, ?_, ?_⟩
        · rw [detStep_fst, detHomeoPhase_v, hchar]
        · rw [detStep_fst, detHomeoPhase_theta, hchar]
        · apply hsub
          rw [detStep_fst, detHomeoPhase_spikeTimes, hchar]
          simp
      · intro hfalse
        rw [detStep_snd, hchar] at hfalse
        simp at hfalse
    · have hchar := detSpikePhase_no_spike cfg ((detRun cfg tb0 (a :: rest)).I.getD t 0) t prev hc
      constructor
      · intro htrue
        rw [detStep_snd, hchar] at htrue
        simp at htrue
      · intro _
        constructor
        · rw [detStep_fst, detHomeoPhase_v, hchar]
        · rw [detStep_fst, detHomeoPhase_theta, hchar]

lemma detHomeoPhase_thetaBase_bounds (cfg : DetCfg) (t : ℕ) (s : DetState)
    (hcond : Int.fmod (t : ℤ) (homeoN cfg) = 0 ∧ 0 < t) :
    1 / 1000 ≤ (detHomeoPhase cfg t s).thetaBase ∧
      (detHomeoPhase cfg t s).thetaBase ≤ 1 := by
  simp only [detHomeoPhase]
  rw [if_pos hcond]
  exact npclip_bounds _ _ _ (by norm_num)

/-- **C6**: at every homeostatic update (loop index `t > 0` with
`t % int(homeo_window_s * fs) == 0`), the adjusted `theta_base` — the value
in effect from loop index `t+1` on — lies in the clamp range
`[0.001, 1.0]`. -/
theorem theta_base_clamped (cfg : DetCfg) (tb0 : ℚ) (sig : List ℚ) (t : ℕ)
    (ht : t + 1 < sig.length) (h0 : 0 < t)
    (hmod : Int.fmod (t : ℤ) (homeoN cfg) = 0) :
    1 / 1000 ≤ (detRun cfg tb0 sig).tbTrace.getD (t + 1) 0 ∧
      (detRun cfg tb0 sig).tbTrace.getD (t + 1) 0 ≤ 1 := by
  match sig with
  | [] => simp at ht
  | a :: rest =>
    obtain ⟨prev, -, -, -, hkey⟩ := detRun_prev cfg tb0 a rest t ht
    rw [detRun_tbTrace_getD_succ cfg tb0 a rest t ht, hkey, detStep_fst]
    exact detHomeoPhase_thetaBase_bounds cfg t _ ⟨hmod, h0⟩

theorem theta_base_clamped_witness :
    1 / 1000 ≤ (detRun detHomeo.1 detHomeo.2 [0, 0, 0, 0]).tbTrace.getD 3 0 ∧
      (detRun detHomeo.1 detHomeo.2 [0, 0, 0, 0]).tbTrace.getD 3 0 ≤ 1 :=
  theta_base_clamped detHomeo.1 detHomeo.2 [0, 0, 0, 0] 2 (by decide) (by decide)
    (by decide)

lemma detSpikePhase_chainInv (cfg : DetCfg) (It : ℚ) (t : ℕ) (s : DetState)
    (h : spikeChainInv cfg s) : spikeChainInv cfg (detSpikePhase cfg It t s).1 := by
  by_cases hc : ¬((t : ℚ) / cfg.fs - s.lastSpike < cfg.refractory_s) ∧
      s.theta ≤ s.v + cfg.dt * (-(s.v - cfg.v_rest) / cfg.tau_m + It)
  · rw [detSpikePhase_spike cfg It t s hc]
    obtain ⟨hch, hlast⟩ := h
    constructor
    · show List.Chain' _ (s.spikeTimes ++ [((t : ℚ) + 1) / cfg.fs])
      rw [List.chain'_append]
      refine ⟨hch, List.chain'_singleton _, ?_⟩
      intro x hx y hy
      simp only [List.head?_cons, Option.mem_def, Option.some.injEq] at hy
      subst hy
      have hx' := hlast x hx
      have hgate : cfg.refractory_s ≤ (t : ℚ) / cfg.fs - s.lastSpike := not_lt.mp hc.1
      have hsplit : ((t : ℚ) + 1) / cfg.fs = (t : ℚ) / cfg.fs + 1 / cfg.fs := add_div _ _ _
      rw [hx', hsplit]
      linarith
    · intro x hx
      show x = (t : ℚ) / cfg.fs + 1 / cfg.fs
      rw [show (s.spikeTimes ++ [((t : ℚ) + 1) / cfg.fs]).getLast?
          = some (((t : ℚ) + 1) / cfg.fs) from List.getLast?_concat _] at hx
      simp only [Option.mem_def, Option.some.injEq] at hx
      subst hx
      exact add_div _ _ _
  · rw [detSpikePhase_no_spike cfg It t s hc]
    exact h

lemma detStep_chainInv (cfg : DetCfg) (It : ℚ) (t : ℕ) (s : DetState)
    (h : spikeChainInv cfg s) : spikeChainInv cfg (detStep cfg It t s).1 := by
  have h1 := detSpikePhase_chainInv cfg It t s h
  unfold spikeChainInv at h1 ⊢
  rw [detStep_fst, detHomeoPhase_spikeTimes, detHomeoPhase_lastSpike]
  exact h1

lemma detRunAux_final_chainInv (cfg : DetCfg) :
    ∀ (l : List ℚ) (t0 : ℕ) (s : DetState), spikeChainInv cfg s →
      spikeChainInv cfg (((detRunAux cfg t0 s l).map (fun e => e.1)).getLastD s) := by
  intro l
  induction l with
  | nil => intro t0 s h; exact h
  | cons x rest ih =>
    intro t0 s h
    simp only [detRunAux, List.map_cons, List.getLastD_cons]
    exact ih (t0 + 1) _ (detStep_chainInv cfg x t0 s h)

/-- The spike times of any detector run are spaced by at least
`refractory_s` (shared backbone of the refractory claims). -/
lemma detRun_spikeTimes_chain (cfg : DetCfg) (tb0 : ℚ) (sig : List ℚ) :
    List.Chain' (fun s1 s2 => cfg.refractory_s ≤ s2 - s1)
      (detRun cfg tb0 sig).final.spikeTimes := by
  have h0 : spikeChainInv cfg (detState0 tb0) :=
    ⟨List.chain'_nil, by simp [detState0]⟩
  match sig with
  | [] => exact List.chain'_nil
  | a :: rest =>
    exact (detRunAux_final_chainInv cfg (computeI cfg (a :: rest)).dropLast 0
      (detState0 tb0) h0).1

/-- **C5**: in the spike train of any single detector run, consecutive
entries of `spike_times` are separated by at least `refractory_s`. -/
theorem refractory_exclusion (cfg : DetCfg) (tb0 : ℚ) (sig : List ℚ) :
    List.Chain' (fun s1 s2 => cfg.refractory_s ≤ s2 - s1)
      (detRun cfg tb0 sig).final.spikeTimes :=
  detRun_spikeTimes_chain cfg tb0 sig

/-- **C2 counterexample**: on the signal `[0, 10, 0, 0]` (fs = 1), the
detector emits a spike at sample `t = 2`, yet the *returned* array value
`v[2]` is `v_reset = 0`, strictly below `theta[1] = 1/10`: the claim's
`v[t] >= theta[t-1]` fails over the returned arrays (the comparison used the
pre-reset integrated potential). -/
theorem spike_threshold_counterexample :
    (detRun detSmall.1 detSmall.2 [0, 10, 0, 0]).spikes.getD 2 false = true ∧
    ¬((detRun detSmall.1 detSmall.2 [0, 10, 0, 0]).theta.getD 1 0 ≤
      (detRun detSmall.1 detSmall.2 [0, 10, 0, 0]).v.getD 2 0) := by
  decide

/-- **C2 amended**: every spike at sample `t+1` satisfies the threshold
condition for the *pre-reset* integrated potential
`v[t] + dt * (-(v[t]-v_rest)/tau_m + I[t]) >= theta[t]` (the returned
`v[t+1]` itself is overwritten with `v_reset`), and the recorded spike
times respect the refractory spacing
(`t/fs - s_prev >= refractory_s` for the most recent prior spike). -/
theorem spike_conditions (cfg : DetCfg) (tb0 : ℚ) (sig : List ℚ) (t : ℕ)
    (ht : t + 1 < sig.length)
    (hs : (detRun cfg tb0 sig).spikes.getD (t + 1) false = true) :
    (detRun cfg tb0 sig).theta.getD t 0 ≤
      (detRun cfg tb0 sig).v.getD t 0
        + cfg.dt * (-((detRun cfg tb0 sig).v.getD t 0 - cfg.v_rest) / cfg.tau_m
          + (detRun cfg tb0 sig).I.getD t 0) ∧
    List.Chain' (fun s1 s2 => cfg.refractory_s ≤ s2 - s1)
      (detRun cfg tb0 sig).final.spikeTimes := by
  refine ⟨?_, detRun_spikeTimes_chain cfg tb0 sig⟩
  match sig with
  | [] => simp at ht
  | a :: rest =>
    obtain ⟨prev, hv0, hth0, -, hkey⟩ := detRun_prev cfg tb0 a rest t ht
    rw [detRun_spikes_getD_succ cfg tb0 a rest t ht, hkey, detStep_snd] at hs
    by_cases hc : ¬((t : ℚ) / cfg.fs - prev.lastSpike < cfg.refractory_s) ∧
        prev.theta ≤ prev.v + cfg.dt * (-(prev.v - cfg.v_rest) / cfg.tau_m
          + (detRun cfg tb0 (a :: rest)).I.getD t 0)
    · rw [hv0, hth0]
      exact hc.2
    · rw [detSpikePhase_no_spike cfg _ t prev hc] at hs
      simp at hs

theorem spike_conditions_witness :
    (detRun detSmall.1 detSmall.2 [0, 10, 0, 0]).theta.getD 1 0 ≤
      (detRun detSmall.1 detSmall.2 [0, 10, 0, 0]).v.getD 1 0
        + detSmall.1.dt * (-((detRun detSmall.1 detSmall.2 [0, 10, 0, 0]).v.getD 1 0
            - detSmall.1.v_rest) / detSmall.1.tau_m
          + (detRun detSmall.1 detSmall.2 [0, 10, 0, 0]).I.getD 1 0) ∧
    List.Chain' (fun s1 s2 => detSmall.1.refractory_s ≤ s2 - s1)
      (detRun detSmall.1 detSmall.2 [0, 10, 0, 0]).final.spikeTimes :=
  spike_conditions detSmall.1 detSmall.2 [0, 10, 0, 0] 1 (by decide) (by decide)

theorem detector_step_semantics_witness :
    ((detRun detSmall.1 detSmall.2 [0, 10, 0, 0]).spikes.getD 2 false = true →
      (detRun detSmall.1 detSmall.2 [0, 10, 0, 0]).v.getD 2 0 = detSmall.1.v_reset ∧
      (detRun detSmall.1 detSmall.2 [0, 10, 0, 0]).theta.getD 2 0
        = (detRun detSmall.1 detSmall.2 [0, 10, 0, 0]).theta.getD 1 0
          + detSmall.1.theta_inc ∧
      ((1 : ℚ) + 1) / detSmall.1.fs
        ∈ (detRun detSmall.1 detSmall.2 [0, 10, 0, 0]).final.spikeTimes) ∧
    ((detRun detSmall.1 detSmall.2 [0, 10, 0, 0]).spikes.getD 2 false = false →
      (detRun detSmall.1 detSmall.2 [0, 10, 0, 0]).v.getD 2 0
        = (detRun detSmall.1 detSmall.2 [0, 10, 0, 0]).v.getD 1 0
          + detSmall.1.dt * (-((detRun detSmall.1 detSmall.2 [0, 10, 0, 0]).v.getD 1 0
              - detSmall.1.v_rest) / detSmall.1.tau_m
            + (detRun detSmall.1 detSmall.2 [0, 10, 0, 0]).I.getD 1 0) ∧
      (detRun detSmall.1 detSmall.2 [0, 10, 0, 0]).theta.getD 2 0
        = (detRun detSmall.1 detSmall.2 [0, 10, 0, 0]).theta.getD 1 0
          + detSmall.1.dt * (-((detRun detSmall.1 detSmall.2 [0, 10, 0, 0]).theta.getD 1 0
            - (detRun detSmall.1 detSmall.2 [0, 10, 0, 0]).tbTrace.getD 1 0)
              / detSmall.1.tau_theta)) :=
  detector_step_semantics detSmall.1 detSmall.2 [0, 10, 0, 0] 1 (by decide)

lemma foldl_min_replicate (c : ℚ) : ∀ n, List.foldl min c (List.replicate n c) = c := by
  intro n
  induction n with
  | zero => rfl
  | succ m ih => rw [List.replicate_succ, List.foldl_cons, min_self]; exact ih

lemma foldl_max_replicate (c : ℚ) : ∀ n, List.foldl max c (List.replicate n c) = c := by
  intro n
  induction n with
  | zero => rfl
  | succ m ih => rw [List.replicate_succ, List.foldl_cons, max_self]; exact ih

lemma shiftedOf_replicate (n : ℕ) (c : ℚ) :
    shiftedOf (List.replicate n c) = List.replicate n 0 := by
  match n with
  | 0 => simp [shiftedOf]
  | Nat.succ m =>
    have h1 : listMin (List.replicate (m + 1) c) = c := by
      rw [List.replicate_succ]
      show List.foldl min c (List.replicate m c) = c
      exact foldl_min_replicate c m
    have h2 : List.map (fun x => x - listMin (List.replicate (m + 1) c))
        (List.replicate (m + 1) c) = List.replicate (m + 1) 0 := by
      rw [h1, List.map_replicate, sub_self]
    have h3 : listMax (List.replicate (m + 1) (0 : ℚ)) = 0 := by
      rw [List.replicate_succ]
      show List.foldl max 0 (List.replicate m (0 : ℚ)) = 0
      exact foldl_max_replicate 0 m
    simp only [shiftedOf]
    rw [h2, h3, if_neg (by norm_num)]

lemma insertionSort_getD_cases (l : List ℚ) (i : ℕ) (d : ℚ) :
    (l.insertionSort (· ≤ ·)).getD i d = d ∨ (l.insertionSort (· ≤ ·)).getD i d ∈ l := by
  by_cases h : i < (l.insertionSort (· ≤ ·)).length
  · right
    rw [List.getD_eq_getElem _ _ h]
    exact (List.mem_insertionSort (· ≤ ·)).mp (List.getElem_mem h)
  · left
    exact List.getD_eq_default _ _ (not_lt.mp h)

lemma median_replicate_zero (n : ℕ) : median (List.replicate n (0 : ℚ)) = 0 := by
  have hget : ∀ i, ((List.replicate n (0 : ℚ)).insertionSort (· ≤ ·)).getD i 0 = 0 := by
    intro i
    rcases insertionSort_getD_cases (List.replicate n 0) i 0 with h | h
    · exact h
    · exact List.eq_of_mem_replicate h
  simp only [median]
  split_ifs
  · rfl
  · exact hget _
  · rw [hget _, hget _]
    norm_num

lemma median_nonneg (l : List ℚ) (h : ∀ x ∈ l, 0 ≤ x) : 0 ≤ median l := by
  have hget : ∀ i, 0 ≤ (l.insertionSort (· ≤ ·)).getD i 0 := by
    intro i
    rcases insertionSort_getD_cases l i 0 with hh | hh
    · rw [hh]
    · exact h _ hh
  simp only [median]
  split_ifs
  · exact le_refl 0
  · exact hget _
  · have h1 := hget (l.length / 2 - 1)
    have h2 := hget (l.length / 2)
    linarith

/-- The robust-spread denominator `mad` is at least its epsilon floor
`1e-9`, hence positive, on every signal. -/
lemma madOf_pos (sig : List ℚ) : 0 < madOf sig := by
  simp only [madOf]
  have h : 0 ≤ median ((shiftedOf sig).map
      (fun x => |x - median (shiftedOf sig)|)) := by
    refine median_nonneg _ ?_
    intro x hx
    simp only [List.mem_map] at hx
    obtain ⟨y, -, rfl⟩ := hx
    exact abs_nonneg _
  have heps : (0 : ℚ) < 1 / 10 ^ 9 := by norm_num
  linarith

lemma detRun_I (cfg : DetCfg) (tb0 : ℚ) (sig : List ℚ) :
    (detRun cfg tb0 sig).I = computeI cfg sig := by
  match sig with
  | [] => rfl
  | a :: rest => rw [detRun_eq]

lemma computeI_replicate (cfg : DetCfg) (n : ℕ) (c : ℚ) (hdz : 0 ≤ cfg.dead_zone) :
    computeI cfg (List.replicate n c) = List.replicate n 0 := by
  simp only [computeI]
  rw [shiftedOf_replicate, median_replicate_zero, List.map_replicate]
  have h1 : npclip ((0 - 0) / madOf (List.replicate n c)) (-5) 10 = 0 := by
    rw [sub_zero, zero_div]
    simp only [npclip]
    rw [max_eq_right (by norm_num : (-5 : ℚ) ≤ 0), min_eq_right (by norm_num : (0 : ℚ) ≤ 10)]
  rw [h1, max_eq_left (by linarith : 0 - cfg.dead_zone ≤ 0), mul_zero]

/-- **C9**: the detector run is total on degenerate inputs.  On a constant
(dead, `max == min`) signal the unit-range division is skipped, the MAD
denominator equals its epsilon floor, and the returned drive current is
identically zero (given a non-negative dead zone, as configured); and on
every nonempty signal the MAD denominator is strictly positive, so the
standardisation never divides by zero. -/
theorem dead_signal_safe (cfg : DetCfg) (tb0 c : ℚ) (n : ℕ) (hdz : 0 ≤ cfg.dead_zone) :
    (detRun cfg tb0 (List.replicate n c)).I = List.replicate n 0 ∧
    ∀ sig : List ℚ, sig ≠ [] → 0 < madOf sig := by
  constructor
  · rw [detRun_I]
    exact computeI_replicate cfg n c hdz
  · intro sig _
    exact madOf_pos sig

theorem dead_signal_safe_witness :
    (detRun detDefault.1 detDefault.2 (List.replicate 3 (5 : ℚ))).I
      = List.replicate 3 0 ∧
    0 < madOf [1, 2] :=
  ⟨(dead_signal_safe detDefault.1 detDefault.2 5 3 (by decide)).1,
   (dead_signal_safe detDefault.1 detDefault.2 5 3 (by decide)).2 [1, 2] (by decide)⟩

end Pacemaker
